import Mathlib

/-!
Shallow embedding of the pruning core of `models_src/pruning_run.py` and
`models_src/pruning_callback.py`.

Modelling choices:
* a layer's weight tensor is its row-major flattening, a `List ℚ`
  (`np.unravel_index (np.ma.argmin …)` selects the first minimum in
  row-major order, so flat indices capture the selection exactly);
* the `WeightMask` collaborator is imported by the source but its module is
  not part of the sources at hand, so its operations are modelled from the
  spec's contract (see the doc comments marked `Modelled from the spec:`);
* external calls (`model.compile`, `model.fit`, `model.save`) are recorded
  in an event trace; the weight updates a `fit` performs are abstracted by
  a retraining oracle `rt : ℕ → List Weights → List Weights`, composed with
  the `PruningCallback` hook which re-applies the mask at epoch end;
* the unbounded `while True:` loops are given as fuel-indexed recursions;
  theorems below show the result is fuel-independent once the fuel reaches
  the layer's element count, which is the loops' termination bound.
-/

namespace LArPruning

/-- A layer's weight tensor, flattened in row-major order. -/
abbrev Weights := List ℚ

/-- A layer's mask tensor, flattened the same way; `true` marks a kept
(nonzero) mask entry, `false` a pruned one. -/
abbrev Mask := List Bool

/-- The mutable state of a `PruningRun` object: the original model path,
the in-memory model weights and the weight mask. -/
structure PruningState where
  model_path : List Char
  model : List Weights
  mask : List Mask
  deriving DecidableEq

/-- Calls made to the external training / persistence collaborators. -/
inductive Event where
  | compile : Event
  | fit : ℕ → Bool → Event
  | save : List Char → Event
  deriving DecidableEq

/-- Element-wise absolute value of a layer, `np.abs`. -/
def absList (ws : Weights) : Weights := ws.map (fun w => |w|)

/-- Index produced by `np.ma.argmin` on a tensor whose entries equal to `0`
are masked out: the first (row-major) index of the smallest entry among the
nonzero ones, and `0` when every entry is masked. -/
def maskedArgmin : Weights → ℕ
  | [] => 0
  | x :: xs =>
    let j := maskedArgmin xs
    let v := xs.getD j 0
    if x = 0 then (if v ≠ 0 then j + 1 else 0)
    else (if v ≠ 0 ∧ v < x then j + 1 else 0)

/-- The `prune_index` computed in each loop iteration of the source. -/
def pruneIndex (ws : Weights) : ℕ := maskedArgmin (absList ws)

/-- The `pruned_value` computed in each loop iteration: the entry of the
absolute-value tensor at the selected index. -/
def prunedValue (ws : Weights) : ℚ := (absList ws).getD (pruneIndex ws) 0

/-- Modelled from the spec: one row of `WeightMask.apply_mask` — a weight is
kept where its mask entry is `true` and forced to `0` where it is `false`. -/
def applyRow : Mask → Weights → Weights
  | _, [] => []
  | [], ws => ws
  | b :: bs, w :: ws => (if b then w else 0) :: applyRow bs ws

/-- Modelled from the spec: `WeightMask.apply_mask` forces every model weight
whose mask entry is `0` to `0` and keeps the remaining weights. -/
def apply_mask : List Mask → List Weights → List Weights
  | _, [] => []
  | [], m => m
  | mk :: mks, row :: rows => applyRow mk row :: apply_mask mks rows

/-- Modelled from the spec: `WeightMask.prune_parameter` flips the single
mask entry at the given layer and position to `0`. -/
def prune_parameter (mk : List Mask) (l : ℕ) (pos : ℕ) : List Mask :=
  mk.set l ((mk.getD l []).set pos false)

/-- Modelled from the spec: `WeightMask.get_mask` returns the ordered
collection of per-layer mask tensors. -/
def get_mask (st : PruningState) : List Mask := st.mask

/-- Number of nonzero entries of one mask tensor, `np.count_nonzero`. -/
def countNonzero (layer : Mask) : ℕ := layer.countP (fun b => b)

/-- `PruningRun.get_remaining_weights_number`: folds the per-layer nonzero
counts of the mask, starting from `0`; the state is read, never written. -/
def get_remaining_weights_number (st : PruningState) : ℕ × PruningState :=
  ((get_mask st).foldl (fun acc layer => acc + countNonzero layer) 0, st)

/-- Decimal digit character, as in Python's `str` of a nonnegative int. -/
def decDigit : ℕ → Char
  | 0 => '0'
  | 1 => '1'
  | 2 => '2'
  | 3 => '3'
  | 4 => '4'
  | 5 => '5'
  | 6 => '6'
  | 7 => '7'
  | 8 => '8'
  | 9 => '9'
  | _ => '0'

/-- Fuel-indexed accumulator loop producing the decimal digits of `n`. -/
def decCharsAux : ℕ → ℕ → List Char → List Char
  | 0, _, acc => acc
  | fuel + 1, n, acc =>
    if n < 10 then decDigit n :: acc
    else decCharsAux fuel (n / 10) (decDigit (n % 10) :: acc)

/-- Decimal rendering of a natural number, Python's `str(n)`. -/
def decChars (n : ℕ) : List Char := decCharsAux (n + 1) n []

/-- Characters after the last `/` of a path (the whole path when it has no
slash); this is the `tail` of `os.path.split`. -/
def afterLastSlash (p : List Char) : List Char :=
  (p.reverse.takeWhile (fun c => c != '/')).reverse

/-- Drop the trailing slashes of a path fragment. -/
def dropTrailingSlashes (p : List Char) : List Char :=
  (p.reverse.dropWhile (fun c => c == '/')).reverse

/-- `os.path.split` on a POSIX path: the head is everything up to the last
slash, stripped of trailing slashes unless it consists only of slashes; the
tail is everything after the last slash. -/
def lastSlashSplit (p : List Char) : List Char × List Char :=
  let tl := afterLastSlash p
  let hd0 := p.take (p.length - tl.length)
  (if hd0.all (fun c => c == '/') then hd0 else dropTrailingSlashes hd0, tl)

/-- Output path of `save_pruned_model`: directory of `model_path`, then
`/`, then `Remaining_weights`, the remaining-weight count, `_noretrain_`
and the original file name. -/
def savedPath (model_path : List Char) (rem : ℕ) : List Char :=
  let ps := lastSlashSplit model_path
  ps.1 ++ ('/' :: ("Remaining_weights".toList ++ decChars rem
    ++ "_noretrain_".toList ++ ps.2))

/-- `PruningRun.save_pruned_model`: computes the remaining-weight count at
save time and persists the in-memory model under the derived path. -/
def save_pruned_model (st : PruningState) : PruningState × List Event :=
  let rem := (get_remaining_weights_number st).1
  (st, [Event.save (savedPath st.model_path rem)])

/-- `PruningCallback.on_epoch_end` from `pruning_callback.py`: re-applies
the mask to the model after an epoch's weight update. -/
def on_epoch_end (mk : List Mask) (model : List Weights) : List Weights :=
  apply_mask mk model

/-- The `while True:` loop of `PruningRun.prune_layer_no_retraining`, with
explicit fuel; returns the state and the value of `number_of_pruned_values`
when the loop exits. -/
def pruneLoopNR (thr : ℚ) (l : ℕ) : ℕ → PruningState → ℕ → PruningState × ℕ
  | 0, st, count => (st, count)
  | fuel + 1, st, count =>
    let ws := st.model.getD l []
    let pv := prunedValue ws
    if 0 < pv ∧ pv < thr ∧ count < ws.length then
      let mk := prune_parameter st.mask l (pruneIndex ws)
      pruneLoopNR thr l fuel ⟨st.model_path, apply_mask mk st.model, mk⟩ (count + 1)
    else (st, count)

/-- `PruningRun.prune_layer_no_retraining`: runs the loop, compiles the
model (training-free) and saves the pruned model. -/
def prune_layer_no_retraining (fuel : ℕ) (l : ℕ) (thr : ℚ) (st : PruningState) :
    PruningState × List Event :=
  let r := pruneLoopNR thr l fuel st 0
  (r.1, Event.compile :: (save_pruned_model r.1).2)

/-- The `while True:` loop of `PruningRun.prune_layer`, with explicit fuel.
Each accepted iteration prunes the selected position, applies the mask,
compiles and fits for `epochs` epochs with the `PruningCallback` hook; the
weight updates of the fit are abstracted by the oracle `rt` and the hook
re-applies the mask afterwards.  Returns the final state, the value of
`number_of_pruned_values`, and the trace of external calls. -/
def pruneLoopRT (rt : ℕ → List Weights → List Weights) (thr : ℚ) (l : ℕ)
    (epochs : ℕ) : ℕ → PruningState → ℕ → PruningState × ℕ × List Event
  | 0, st, count => (st, count, [])
  | fuel + 1, st, count =>
    let ws := st.model.getD l []
    let pv := prunedValue ws
    if 0 < pv ∧ pv < thr ∧ count < ws.length then
      let mk := prune_parameter st.mask l (pruneIndex ws)
      let m1 := apply_mask mk st.model
      let m2 := on_epoch_end mk (rt count m1)
      let r := pruneLoopRT rt thr l epochs fuel ⟨st.model_path, m2, mk⟩ (count + 1)
      (r.1, r.2.1, Event.compile :: Event.fit epochs true :: r.2.2)
    else (st, count, [])

/-- `PruningRun.prune_layer`: runs the loop, then performs the final
20-epoch retraining with the hook active and saves the pruned model. -/
def prune_layer (rt : ℕ → List Weights → List Weights) (fuel : ℕ) (l : ℕ)
    (thr : ℚ) (epochs : ℕ) (st : PruningState) : PruningState × List Event :=
  let r := pruneLoopRT rt thr l epochs fuel st 0
  let st1 := r.1
  let stF : PruningState :=
    ⟨st1.model_path, on_epoch_end st1.mask (rt r.2.1 st1.model), st1.mask⟩
  (stF, r.2.2 ++ Event.fit 20 true :: (save_pruned_model stF).2)

/-- Modelled from the spec: `WeightMask.propagate_pruning` replaces the
higher layer's mask by one derived from the lower layer's; the exact
derivation rule is the collaborator's contract and is taken as the
parameter `rule` (the contract obliges it only ever to clear entries). -/
def propagateMask (rule : Mask → Mask → Mask) (mk : List Mask) (lo hi : ℕ) :
    List Mask :=
  mk.set hi (rule (mk.getD lo []) (mk.getD hi []))

/-- `PruningRun.propagate_pruning`: delegates to the mask, applies the
updated mask to the model and saves. -/
def propagate_pruning (rule : Mask → Mask → Mask) (lo hi : ℕ)
    (st : PruningState) : PruningState × List Event :=
  let mk := propagateMask rule st.mask lo hi
  let st1 : PruningState := ⟨st.model_path, apply_mask mk st.model, mk⟩
  (st1, (save_pruned_model st1).2)

/-- A pruning call on a `PruningRun` instance, with its arguments (loop
fuel included, since the loops are fuel-indexed here). -/
inductive POp where
  | pl : ℕ → ℚ → ℕ → ℕ → POp
  | plnr : ℕ → ℚ → ℕ → POp
  | prop : ℕ → ℕ → POp

/-- State transformer of one pruning call. -/
def runOp (rt : ℕ → List Weights → List Weights) (rule : Mask → Mask → Mask) :
    POp → PruningState → PruningState
  | POp.pl l thr ep fuel, st => (prune_layer rt fuel l thr ep st).1
  | POp.plnr l thr fuel, st => (prune_layer_no_retraining fuel l thr st).1
  | POp.prop lo hi, st => (propagate_pruning rule lo hi st).1

/-- Sequence of successive pruning calls on the same instance. -/
def runSeq (rt : ℕ → List Weights → List Weights) (rule : Mask → Mask → Mask)
    (ops : List POp) (st : PruningState) : PruningState :=
  ops.foldl (fun s o => runOp rt rule o s) st

/-- Acceptance condition of a pruning step, as written in the source:
`0 < pruned_value < threshold and number_of_pruned_values < max_weights`,
where `max_weights` is the total element count of the layer. -/
abbrev acceptGuard (ws : Weights) (thr : ℚ) (count : ℕ) : Prop :=
  0 < prunedValue ws ∧ prunedValue ws < thr ∧ count < ws.length

/-- Mask after pruning the selected position of layer `l`. -/
def nextMask (st : PruningState) (l : ℕ) : List Mask :=
  prune_parameter st.mask l (pruneIndex (st.model.getD l []))

/-- State after one accepted iteration of `prune_layer_no_retraining`. -/
def stepNR (l : ℕ) (st : PruningState) : PruningState :=
  ⟨st.model_path, apply_mask (nextMask st l) st.model, nextMask st l⟩

/-- State after one accepted iteration of `prune_layer` (mask pruned and
applied, model retrained by the oracle, mask re-applied by the hook). -/
def stepRT (rt : ℕ → List Weights → List Weights) (l : ℕ) (count : ℕ)
    (st : PruningState) : PruningState :=
  ⟨st.model_path,
   on_epoch_end (nextMask st l) (rt count (apply_mask (nextMask st l) st.model)),
   nextMask st l⟩

/-- Weight of the model at layer `j`, position `i` (0 outside the model). -/
def wentry (m : List Weights) (j i : ℕ) : ℚ := (m.getD j []).getD i 0

/-- Mask entry at layer `j`, position `i` (kept, i.e. `true`, outside). -/
def mentry (mk : List Mask) (j i : ℕ) : Bool := (mk.getD j []).getD i true

theorem maskedArgmin_nil : maskedArgmin [] = 0 := rfl

theorem maskedArgmin_cons (x : ℚ) (xs : List ℚ) :
    maskedArgmin (x :: xs) =
      if x = 0 then (if xs.getD (maskedArgmin xs) 0 ≠ 0 then maskedArgmin xs + 1 else 0)
      else (if xs.getD (maskedArgmin xs) 0 ≠ 0 ∧ xs.getD (maskedArgmin xs) 0 < x
        then maskedArgmin xs + 1 else 0) := rfl

theorem getD_eq_zero_of_all_zero {ys : List ℚ} (h : ∀ x ∈ ys, x = 0) (n : ℕ) :
    ys.getD n 0 = 0 := by
  induction ys generalizing n with
  | nil => simp
  | cons x xs ih =>
    cases n with
    | zero => simpa using h x (by simp)
    | succ n =>
      rw [List.getD_cons_succ]
      exact ih (fun y hy => h y (by simp [hy])) n

theorem maskedArgmin_spec (ys : List ℚ) (h : ∃ x ∈ ys, x ≠ 0) :
    maskedArgmin ys < ys.length ∧
    ys.getD (maskedArgmin ys) 0 ≠ 0 ∧
    (∀ i, i < ys.length → ys.getD i 0 ≠ 0 →
      ys.getD (maskedArgmin ys) 0 ≤ ys.getD i 0) ∧
    (∀ i, i < maskedArgmin ys → ys.getD i 0 ≠ 0 →
      ys.getD (maskedArgmin ys) 0 < ys.getD i 0) := by
  induction ys with
  | nil => simp at h
  | cons x xs ih =>
    rw [maskedArgmin_cons]
    by_cases hx : x = 0
    · have hxs : ∃ y ∈ xs, y ≠ 0 := by
        rcases h with ⟨y, hy, hy0⟩
        rcases List.mem_cons.mp hy with rfl | hmem
        · exact absurd hx hy0
        · exact ⟨y, hmem, hy0⟩
      obtain ⟨hlt, hne, hmin, hstrict⟩ := ih hxs
      rw [if_pos hx, if_pos hne]
      refine ⟨by simp only [List.length_cons]; omega, ?_, ?_, ?_⟩
      · rw [List.getD_cons_succ]; exact hne
      · intro i hi h0
        rw [List.getD_cons_succ]
        cases i with
        | zero => rw [List.getD_cons_zero] at h0; exact absurd hx h0
        | succ i =>
          rw [List.getD_cons_succ] at h0 ⊢
          exact hmin i (by simp only [List.length_cons] at hi; omega) h0
      · intro i hi h0
        rw [List.getD_cons_succ]
        cases i with
        | zero => rw [List.getD_cons_zero] at h0; exact absurd hx h0
        | succ i =>
          rw [List.getD_cons_succ] at h0 ⊢
          exact hstrict i (by omega) h0
    · rw [if_neg hx]
      by_cases hv : xs.getD (maskedArgmin xs) 0 ≠ 0 ∧ xs.getD (maskedArgmin xs) 0 < x
      · have hxs : ∃ y ∈ xs, y ≠ 0 := by
          by_contra hall
          push_neg at hall
          exact hv.1 (getD_eq_zero_of_all_zero hall _)
        obtain ⟨hlt, hne, hmin, hstrict⟩ := ih hxs
        rw [if_pos hv]
        refine ⟨by simp only [List.length_cons]; omega, ?_, ?_, ?_⟩
        · rw [List.getD_cons_succ]; exact hne
        · intro i hi h0
          rw [List.getD_cons_succ]
          cases i with
          | zero => rw [List.getD_cons_zero] at h0 ⊢; exact le_of_lt hv.2
          | succ i =>
            rw [List.getD_cons_succ] at h0 ⊢
            exact hmin i (by simp only [List.length_cons] at hi; omega) h0
        · intro i hi h0
          rw [List.getD_cons_succ]
          cases i with
          | zero => rw [List.getD_cons_zero] at h0 ⊢; exact hv.2
          | succ i =>
            rw [List.getD_cons_succ] at h0 ⊢
            exact hstrict i (by omega) h0
      · rw [if_neg hv]
        push_neg at hv
        refine ⟨by simp, ?_, ?_, ?_⟩
        · rw [List.getD_cons_zero]; exact hx
        · intro i hi h0
          rw [List.getD_cons_zero]
          cases i with
          | zero => rw [List.getD_cons_zero]
          | succ i =>
            rw [List.getD_cons_succ] at h0 ⊢
            have hi' : i < xs.length := by simp only [List.length_cons] at hi; omega
            have hmem : xs.getD i 0 ∈ xs := by
              rw [List.getD_eq_getElem (l := xs) (d := 0) hi']
              exact List.getElem_mem hi'
            obtain ⟨_, hne, hmin, _⟩ := ih ⟨xs.getD i 0, hmem, h0⟩
            exact le_trans (hv hne) (hmin i hi' h0)
        · intro i hi h0
          exact absurd hi (Nat.not_lt_zero i)

theorem absList_length (ws : Weights) : (absList ws).length = ws.length :=
  List.length_map ws _

theorem absList_getD (ws : Weights) (n : ℕ) :
    (absList ws).getD n 0 = |ws.getD n 0| := by
  have h := List.getD_map ws 0 (n := n) (f := fun w : ℚ => |w|)
  simpa [absList] using h

/-- C2: in each loop iteration of `prune_layer` and
`prune_layer_no_retraining`, the selected candidate position `pruneIndex`
is in range, points at an entry whose current value is nonzero, its
absolute value is minimal among all nonzero entries of the layer, every
nonzero entry strictly before it has strictly larger absolute value (first
position wins ties, in row-major order), and `pruned_value` is the absolute
value of the selected entry. -/
theorem claim2_candidate_is_masked_first_argmin (ws : Weights)
    (h : ∃ x ∈ ws, x ≠ 0) :
    pruneIndex ws < ws.length ∧
    ws.getD (pruneIndex ws) 0 ≠ 0 ∧
    (∀ i, i < ws.length → ws.getD i 0 ≠ 0 →
      |ws.getD (pruneIndex ws) 0| ≤ |ws.getD i 0|) ∧
    (∀ i, i < pruneIndex ws → ws.getD i 0 ≠ 0 →
      |ws.getD (pruneIndex ws) 0| < |ws.getD i 0|) ∧
    prunedValue ws = |ws.getD (pruneIndex ws) 0| := by
  have habs : ∃ y ∈ absList ws, y ≠ 0 := by
    rcases h with ⟨x, hx, hx0⟩
    exact ⟨|x|, List.mem_map_of_mem _ hx, by simpa using hx0⟩
  obtain ⟨hlt, hne, hmin, hstrict⟩ := maskedArgmin_spec (absList ws) habs
  simp only [absList_getD, absList_length, ne_eq, abs_eq_zero] at hlt hne hmin hstrict
  exact ⟨hlt, hne, hmin, hstrict, absList_getD ws (pruneIndex ws)⟩

/-- C2 witness: a concrete layer with nonzero entries. -/
theorem claim2_witness :
    (∃ x ∈ [(3 : ℚ), 1, 2], x ≠ 0) ∧
    (pruneIndex [(3 : ℚ), 1, 2] < 3 ∧
    List.getD [(3 : ℚ), 1, 2] (pruneIndex [(3 : ℚ), 1, 2]) 0 ≠ 0 ∧
    (∀ i, i < List.length [(3 : ℚ), 1, 2] → List.getD [(3 : ℚ), 1, 2] i 0 ≠ 0 →
      |List.getD [(3 : ℚ), 1, 2] (pruneIndex [(3 : ℚ), 1, 2]) 0| ≤
        |List.getD [(3 : ℚ), 1, 2] i 0|) ∧
    (∀ i, i < pruneIndex [(3 : ℚ), 1, 2] → List.getD [(3 : ℚ), 1, 2] i 0 ≠ 0 →
      |List.getD [(3 : ℚ), 1, 2] (pruneIndex [(3 : ℚ), 1, 2]) 0| <
        |List.getD [(3 : ℚ), 1, 2] i 0|) ∧
    prunedValue [(3 : ℚ), 1, 2] = |List.getD [(3 : ℚ), 1, 2] (pruneIndex [(3 : ℚ), 1, 2]) 0|) :=
  ⟨⟨3, by simp, by norm_num⟩,
    claim2_candidate_is_masked_first_argmin [(3 : ℚ), 1, 2] ⟨3, by simp, by norm_num⟩⟩

theorem pruneLoopNR_succ_pos (thr : ℚ) (l fuel : ℕ) (st : PruningState)
    (count : ℕ) (hg : acceptGuard (st.model.getD l []) thr count) :
    pruneLoopNR thr l (fuel + 1) st count =
      pruneLoopNR thr l fuel (stepNR l st) (count + 1) := by
  simp only [pruneLoopNR]
  rw [if_pos hg]
  rfl

theorem pruneLoopNR_succ_neg (thr : ℚ) (l fuel : ℕ) (st : PruningState)
    (count : ℕ) (hg : ¬ acceptGuard (st.model.getD l []) thr count) :
    pruneLoopNR thr l (fuel + 1) st count = (st, count) := by
  simp only [pruneLoopNR]
  rw [if_neg hg]

theorem pruneLoopRT_succ_pos (rt : ℕ → List Weights → List Weights) (thr : ℚ)
    (l ep fuel : ℕ) (st : PruningState) (count : ℕ)
    (hg : acceptGuard (st.model.getD l []) thr count) :
    pruneLoopRT rt thr l ep (fuel + 1) st count =
      ((pruneLoopRT rt thr l ep fuel (stepRT rt l count st) (count + 1)).1,
       (pruneLoopRT rt thr l ep fuel (stepRT rt l count st) (count + 1)).2.1,
       Event.compile :: Event.fit ep true ::
         (pruneLoopRT rt thr l ep fuel (stepRT rt l count st) (count + 1)).2.2) := by
  simp only [pruneLoopRT]
  rw [if_pos hg]
  rfl

theorem pruneLoopRT_succ_neg (rt : ℕ → List Weights → List Weights) (thr : ℚ)
    (l ep fuel : ℕ) (st : PruningState) (count : ℕ)
    (hg : ¬ acceptGuard (st.model.getD l []) thr count) :
    pruneLoopRT rt thr l ep (fuel + 1) st count = (st, count, []) := by
  simp only [pruneLoopRT]
  rw [if_neg hg]

theorem pruneLoopNR_count_ge (thr : ℚ) (l : ℕ) :
    ∀ fuel (st : PruningState) (count : ℕ),
      count ≤ (pruneLoopNR thr l fuel st count).2 := by
  intro fuel
  induction fuel with
  | zero => intro st count; exact Nat.le_refl _
  | succ fuel ih =>
    intro st count
    by_cases hg : acceptGuard (st.model.getD l []) thr count
    · rw [pruneLoopNR_succ_pos thr l fuel st count hg]
      exact le_trans (Nat.le_succ count) (ih _ _)
    · rw [pruneLoopNR_succ_neg thr l fuel st count hg]

theorem pruneLoopRT_count_ge (rt : ℕ → List Weights → List Weights) (thr : ℚ)
    (l ep : ℕ) : ∀ fuel (st : PruningState) (count : ℕ),
      count ≤ (pruneLoopRT rt thr l ep fuel st count).2.1 := by
  intro fuel
  induction fuel with
  | zero => intro st count; exact Nat.le_refl _
  | succ fuel ih =>
    intro st count
    by_cases hg : acceptGuard (st.model.getD l []) thr count
    · rw [pruneLoopRT_succ_pos rt thr l ep fuel st count hg]
      exact le_trans (Nat.le_succ count) (ih _ _)
    · rw [pruneLoopRT_succ_neg rt thr l ep fuel st count hg]

/-- C1: in each iteration of the loops of `prune_layer` and
`prune_layer_no_retraining`, a pruning step is accepted (observably: the
per-call counter moves) exactly when `0 < pruned_value < threshold` and the
number of positions pruned so far is below the layer's total element count;
when the condition fails the loop stops immediately, returning the state
unchanged. -/
theorem claim1_acceptance_guard (rt : ℕ → List Weights → List Weights)
    (thr : ℚ) (l ep fuel : ℕ) (st : PruningState) (count : ℕ) :
    ((pruneLoopRT rt thr l ep (fuel + 1) st count).2.1 ≠ count ↔
      acceptGuard (st.model.getD l []) thr count) ∧
    ((pruneLoopNR thr l (fuel + 1) st count).2 ≠ count ↔
      acceptGuard (st.model.getD l []) thr count) ∧
    (¬ acceptGuard (st.model.getD l []) thr count →
      pruneLoopRT rt thr l ep (fuel + 1) st count = (st, count, []) ∧
      pruneLoopNR thr l (fuel + 1) st count = (st, count)) := by
  by_cases hg : acceptGuard (st.model.getD l []) thr count
  · refine ⟨⟨fun _ => hg, fun _ => ?_⟩, ⟨fun _ => hg, fun _ => ?_⟩,
      fun hng => absurd hg hng⟩
    · rw [pruneLoopRT_succ_pos rt thr l ep fuel st count hg]
      have h := pruneLoopRT_count_ge rt thr l ep fuel (stepRT rt l count st) (count + 1)
      simp only [ne_eq]
      omega
    · rw [pruneLoopNR_succ_pos thr l fuel st count hg]
      have h := pruneLoopNR_count_ge thr l fuel (stepNR l st) (count + 1)
      omega
  · refine ⟨⟨fun hne => ?_, fun h => absurd h hg⟩,
      ⟨fun hne => ?_, fun h => absurd h hg⟩,
      fun _ => ⟨pruneLoopRT_succ_neg rt thr l ep fuel st count hg,
        pruneLoopNR_succ_neg thr l fuel st count hg⟩⟩
    · rw [pruneLoopRT_succ_neg rt thr l ep fuel st count hg] at hne
      exact absurd rfl hne
    · rw [pruneLoopNR_succ_neg thr l fuel st count hg] at hne
      exact absurd rfl hne

/-- C1 witness: the theorem applied at a concrete instance where the guard
holds, so the counter moves. -/
theorem claim1_witness :
    (pruneLoopNR (1/4) 0 1 ⟨[], [[(1 : ℚ)/100]], [[true]]⟩ 0).2 ≠ 0 := by
  have hg : acceptGuard [(1 : ℚ)/100] (1/4) 0 := by
    norm_num [acceptGuard, prunedValue, pruneIndex, absList, maskedArgmin_cons,
      maskedArgmin_nil, abs_of_pos, List.getD_cons_zero, List.getD_nil]
  exact (claim1_acceptance_guard (fun _ m => m) (1/4) 0 1 0
    ⟨[], [[(1 : ℚ)/100]], [[true]]⟩ 0).2.1.mpr hg

/-- C3: on the layer `[0.5, 0.01, 0.3, 0.2]` with threshold `0.25` and a
fresh mask, the no-retraining loop prunes the position of `0.01` first
(mask `[1,0,1,1]`), then the position of `0.2` (mask `[1,0,1,0]`), stops at
the third iteration because the candidate value `0.3` is not below `0.25`,
and the remaining nonzero-mask count of the layer is `2`. -/
theorem claim3_scenario :
    pruneIndex [(1 : ℚ)/2, 1/100, 3/10, 1/5] = 1 ∧
    pruneLoopNR (1/4) 0 1 ⟨[], [[(1 : ℚ)/2, 1/100, 3/10, 1/5]], [[true, true, true, true]]⟩ 0 =
      (⟨[], [[(1 : ℚ)/2, 0, 3/10, 1/5]], [[true, false, true, true]]⟩, 1) ∧
    pruneLoopNR (1/4) 0 2 ⟨[], [[(1 : ℚ)/2, 1/100, 3/10, 1/5]], [[true, true, true, true]]⟩ 0 =
      (⟨[], [[(1 : ℚ)/2, 0, 3/10, 0]], [[true, false, true, false]]⟩, 2) ∧
    prunedValue [(1 : ℚ)/2, 0, 3/10, 0] = 3/10 ∧
    ¬ prunedValue [(1 : ℚ)/2, 0, 3/10, 0] < 1/4 ∧
    (prune_layer_no_retraining 5 0 (1/4)
        ⟨[], [[(1 : ℚ)/2, 1/100, 3/10, 1/5]], [[true, true, true, true]]⟩).1 =
      ⟨[], [[(1 : ℚ)/2, 0, 3/10, 0]], [[true, false, true, false]]⟩ ∧
    countNonzero [true, false, true, false] = 2 ∧
    (get_remaining_weights_number
        ⟨[], [[(1 : ℚ)/2, 0, 3/10, 0]], [[true, false, true, false]]⟩).1 = 2 := by
  have hIdx0 : pruneIndex [(1 : ℚ)/2, 1/100, 3/10, 1/5] = 1 := by
    norm_num [pruneIndex, absList, maskedArgmin_cons, maskedArgmin_nil, abs_of_pos,
      List.getD_cons_succ, List.getD_cons_zero]
  have hIdx1 : pruneIndex [(1 : ℚ)/2, 0, 3/10, 1/5] = 3 := by
    norm_num [pruneIndex, absList, maskedArgmin_cons, maskedArgmin_nil, abs_of_pos,
      List.getD_cons_succ, List.getD_cons_zero]
  have hpv2 : prunedValue [(1 : ℚ)/2, 0, 3/10, 0] = 3/10 := by
    norm_num [prunedValue, pruneIndex, absList, maskedArgmin_cons, maskedArgmin_nil,
      abs_of_pos, List.getD_cons_succ, List.getD_cons_zero]
  have hg0 : acceptGuard [(1 : ℚ)/2, 1/100, 3/10, 1/5] (1/4) 0 := by
    norm_num [acceptGuard, prunedValue, pruneIndex, absList, maskedArgmin_cons,
      maskedArgmin_nil, abs_of_pos, List.getD_cons_succ, List.getD_cons_zero]
  have hg1 : acceptGuard [(1 : ℚ)/2, 0, 3/10, 1/5] (1/4) 1 := by
    norm_num [acceptGuard, prunedValue, pruneIndex, absList, maskedArgmin_cons,
      maskedArgmin_nil, abs_of_pos, List.getD_cons_succ, List.getD_cons_zero]
  have hgstop : ¬ acceptGuard [(1 : ℚ)/2, 0, 3/10, 0] (1/4) 2 := by
    intro hc
    exact absurd hc.2.1 (by rw [hpv2]; norm_num)
  have hstep1 : stepNR 0 ⟨[], [[(1 : ℚ)/2, 1/100, 3/10, 1/5]], [[true, true, true, true]]⟩ =
      ⟨[], [[(1 : ℚ)/2, 0, 3/10, 1/5]], [[true, false, true, true]]⟩ := by
    simp only [stepNR, nextMask, List.getD_cons_zero]
    rw [hIdx0]
    rfl
  have hstep2 : stepNR 0 ⟨[], [[(1 : ℚ)/2, 0, 3/10, 1/5]], [[true, false, true, true]]⟩ =
      ⟨[], [[(1 : ℚ)/2, 0, 3/10, 0]], [[true, false, true, false]]⟩ := by
    simp only [stepNR, nextMask, List.getD_cons_zero]
    rw [hIdx1]
    rfl
  have e1 : pruneLoopNR (1/4) 0 1
      ⟨[], [[(1 : ℚ)/2, 1/100, 3/10, 1/5]], [[true, true, true, true]]⟩ 0 =
      pruneLoopNR (1/4) 0 0
        (stepNR 0 ⟨[], [[(1 : ℚ)/2, 1/100, 3/10, 1/5]], [[true, true, true, true]]⟩) 1 :=
    pruneLoopNR_succ_pos (1/4) 0 0 _ 0 hg0
  have h1 : pruneLoopNR (1/4) 0 1
      ⟨[], [[(1 : ℚ)/2, 1/100, 3/10, 1/5]], [[true, true, true, true]]⟩ 0 =
      (⟨[], [[(1 : ℚ)/2, 0, 3/10, 1/5]], [[true, false, true, true]]⟩, 1) := by
    rw [e1, hstep1]
    rfl
  have e2 : pruneLoopNR (1/4) 0 2
      ⟨[], [[(1 : ℚ)/2, 1/100, 3/10, 1/5]], [[true, true, true, true]]⟩ 0 =
      pruneLoopNR (1/4) 0 1
        (stepNR 0 ⟨[], [[(1 : ℚ)/2, 1/100, 3/10, 1/5]], [[true, true, true, true]]⟩) 1 :=
    pruneLoopNR_succ_pos (1/4) 0 1 _ 0 hg0
  have e2b : pruneLoopNR (1/4) 0 1
      ⟨[], [[(1 : ℚ)/2, 0, 3/10, 1/5]], [[true, false, true, true]]⟩ 1 =
      pruneLoopNR (1/4) 0 0
        (stepNR 0 ⟨[], [[(1 : ℚ)/2, 0, 3/10, 1/5]], [[true, false, true, true]]⟩) 2 :=
    pruneLoopNR_succ_pos (1/4) 0 0 _ 1 hg1
  have h2 : pruneLoopNR (1/4) 0 2
      ⟨[], [[(1 : ℚ)/2, 1/100, 3/10, 1/5]], [[true, true, true, true]]⟩ 0 =
      (⟨[], [[(1 : ℚ)/2, 0, 3/10, 0]], [[true, false, true, false]]⟩, 2) := by
    rw [e2, hstep1, e2b, hstep2]
    rfl
  have e5a : pruneLoopNR (1/4) 0 5
      ⟨[], [[(1 : ℚ)/2, 1/100, 3/10, 1/5]], [[true, true, true, true]]⟩ 0 =
      pruneLoopNR (1/4) 0 4
        (stepNR 0 ⟨[], [[(1 : ℚ)/2, 1/100, 3/10, 1/5]], [[true, true, true, true]]⟩) 1 :=
    pruneLoopNR_succ_pos (1/4) 0 4 _ 0 hg0
  have e5b : pruneLoopNR (1/4) 0 4
      ⟨[], [[(1 : ℚ)/2, 0, 3/10, 1/5]], [[true, false, true, true]]⟩ 1 =
      pruneLoopNR (1/4) 0 3
        (stepNR 0 ⟨[], [[(1 : ℚ)/2, 0, 3/10, 1/5]], [[true, false, true, true]]⟩) 2 :=
    pruneLoopNR_succ_pos (1/4) 0 3 _ 1 hg1
  have e5c : pruneLoopNR (1/4) 0 3
      ⟨[], [[(1 : ℚ)/2, 0, 3/10, 0]], [[true, false, true, false]]⟩ 2 =
      (⟨[], [[(1 : ℚ)/2, 0, 3/10, 0]], [[true, false, true, false]]⟩, 2) :=
    pruneLoopNR_succ_neg (1/4) 0 2 _ 2 hgstop
  have h5 : pruneLoopNR (1/4) 0 5
      ⟨[], [[(1 : ℚ)/2, 1/100, 3/10, 1/5]], [[true, true, true, true]]⟩ 0 =
      (⟨[], [[(1 : ℚ)/2, 0, 3/10, 0]], [[true, false, true, false]]⟩, 2) := by
    rw [e5a, hstep1, e5b, hstep2, e5c]
  refine ⟨hIdx0, h1, h2, hpv2, ?_, ?_, rfl, rfl⟩
  · rw [hpv2]
    norm_num
  · simp only [prune_layer_no_retraining]
    rw [h5]

/-- C10: when every weight of the target layer is exactly `0`, the masked
minimum search selects `pruned_value = 0`, the acceptance guard fails at
once, both loops leave the state untouched, and the no-retraining call
proceeds directly to its post-loop compile and save. -/
theorem claim10_all_zero_layer (st : PruningState) (l : ℕ)
    (h : ∀ w ∈ st.model.getD l [], w = 0) :
    prunedValue (st.model.getD l []) = 0 ∧
    (∀ thr fuel count, pruneLoopNR thr l fuel st count = (st, count)) ∧
    (∀ rt thr ep fuel count, pruneLoopRT rt thr l ep fuel st count = (st, count, [])) ∧
    (∀ thr fuel, prune_layer_no_retraining fuel l thr st =
      (st, [Event.compile,
            Event.save (savedPath st.model_path (get_remaining_weights_number st).1)])) := by
  have habs : ∀ y ∈ absList (st.model.getD l []), y = 0 := by
    intro y hy
    rcases List.mem_map.mp hy with ⟨w, hw, rfl⟩
    simp [h w hw]
  have hpv : prunedValue (st.model.getD l []) = 0 :=
    getD_eq_zero_of_all_zero habs _
  have hguard : ∀ (thr : ℚ) count, ¬ acceptGuard (st.model.getD l []) thr count := by
    intro thr count hc
    have hc1 := hc.1
    rw [hpv] at hc1
    exact lt_irrefl 0 hc1
  have hNR : ∀ (thr : ℚ) fuel count, pruneLoopNR thr l fuel st count = (st, count) := by
    intro thr fuel count
    cases fuel with
    | zero => rfl
    | succ fuel => exact pruneLoopNR_succ_neg thr l fuel st count (hguard thr count)
  refine ⟨hpv, hNR, ?_, ?_⟩
  · intro rt thr ep fuel count
    cases fuel with
    | zero => rfl
    | succ fuel => exact pruneLoopRT_succ_neg rt thr l ep fuel st count (hguard thr count)
  · intro thr fuel
    simp [prune_layer_no_retraining, hNR thr fuel 0, save_pruned_model]

/-- C10 witness: a concrete all-zero layer. -/
theorem claim10_witness :
    (∀ w ∈ List.getD [[(0 : ℚ), 0]] 0 [], w = 0) ∧
    prunedValue (List.getD [[(0 : ℚ), 0]] 0 []) = 0 ∧
    pruneLoopNR 1 0 3 ⟨[], [[(0 : ℚ), 0]], [[true, true]]⟩ 0 =
      (⟨[], [[(0 : ℚ), 0]], [[true, true]]⟩, 0) :=
  ⟨by decide,
   (claim10_all_zero_layer ⟨[], [[(0 : ℚ), 0]], [[true, true]]⟩ 0 (by decide)).1,
   (claim10_all_zero_layer ⟨[], [[(0 : ℚ), 0]], [[true, true]]⟩ 0 (by decide)).2.1 1 3 0⟩

theorem applyRow_length (mk : Mask) (ws : Weights) :
    (applyRow mk ws).length = ws.length := by
  induction ws generalizing mk with
  | nil => cases mk <;> rfl
  | cons w ws ih =>
    cases mk with
    | nil => rfl
    | cons b bs => simp [applyRow, ih]

theorem apply_mask_getD_length (mks : List Mask) (m : List Weights) (j : ℕ) :
    ((apply_mask mks m).getD j []).length = (m.getD j []).length := by
  induction m generalizing mks j with
  | nil => cases mks <;> rfl
  | cons row rows ih =>
    cases mks with
    | nil => rfl
    | cons mk mks =>
      cases j with
      | zero => simp [apply_mask, List.getD_cons_zero, applyRow_length]
      | succ j => simp only [apply_mask, List.getD_cons_succ]; exact ih mks j

theorem stepNR_layer_length (l : ℕ) (st : PruningState) :
    ((stepNR l st).model.getD l []).length = (st.model.getD l []).length :=
  apply_mask_getD_length (nextMask st l) st.model l

theorem stepRT_layer_length (rt : ℕ → List Weights → List Weights) (l count : ℕ)
    (st : PruningState)
    (hrt : ∀ k m, ((rt k m).getD l []).length = (m.getD l []).length) :
    ((stepRT rt l count st).model.getD l []).length = (st.model.getD l []).length := by
  show ((apply_mask (nextMask st l)
    (rt count (apply_mask (nextMask st l) st.model))).getD l []).length = _
  rw [apply_mask_getD_length, hrt, apply_mask_getD_length]

theorem pruneLoopNR_count_le (thr : ℚ) (l M : ℕ) :
    ∀ fuel (st : PruningState) (count : ℕ),
      (st.model.getD l []).length = M → count ≤ M →
      (pruneLoopNR thr l fuel st count).2 ≤ M := by
  intro fuel
  induction fuel with
  | zero => intro st count _ hc; exact hc
  | succ fuel ih =>
    intro st count hM hc
    by_cases hg : acceptGuard (st.model.getD l []) thr count
    · rw [pruneLoopNR_succ_pos thr l fuel st count hg]
      have hlt : count < M := hM ▸ hg.2.2
      exact ih (stepNR l st) (count + 1) ((stepNR_layer_length l st).trans hM) hlt
    · rw [pruneLoopNR_succ_neg thr l fuel st count hg]
      exact hc

theorem pruneLoopRT_count_le (rt : ℕ → List Weights → List Weights) (thr : ℚ)
    (l ep M : ℕ)
    (hrt : ∀ k m, ((rt k m).getD l []).length = (m.getD l []).length) :
    ∀ fuel (st : PruningState) (count : ℕ),
      (st.model.getD l []).length = M → count ≤ M →
      (pruneLoopRT rt thr l ep fuel st count).2.1 ≤ M := by
  intro fuel
  induction fuel with
  | zero => intro st count _ hc; exact hc
  | succ fuel ih =>
    intro st count hM hc
    by_cases hg : acceptGuard (st.model.getD l []) thr count
    · rw [pruneLoopRT_succ_pos rt thr l ep fuel st count hg]
      have hlt : count < M := hM ▸ hg.2.2
      exact ih (stepRT rt l count st) (count + 1)
        ((stepRT_layer_length rt l count st hrt).trans hM) hlt
    · rw [pruneLoopRT_succ_neg rt thr l ep fuel st count hg]
      exact hc

theorem pruneLoopNR_stable (thr : ℚ) (l M : ℕ) :
    ∀ fuel extra (st : PruningState) (count : ℕ),
      (st.model.getD l []).length = M → M ≤ count + fuel →
      pruneLoopNR thr l (fuel + extra) st count = pruneLoopNR thr l fuel st count := by
  intro fuel
  induction fuel with
  | zero =>
    intro extra st count hM hc
    cases extra with
    | zero => rfl
    | succ extra =>
      have hng : ¬ acceptGuard (st.model.getD l []) thr count := by
        intro hg
        have := hg.2.2
        omega
      rw [Nat.zero_add]
      exact pruneLoopNR_succ_neg thr l extra st count hng
  | succ fuel ih =>
    intro extra st count hM hc
    have harr : fuel + 1 + extra = (fuel + extra) + 1 := by omega
    rw [harr]
    by_cases hg : acceptGuard (st.model.getD l []) thr count
    · rw [pruneLoopNR_succ_pos thr l (fuel + extra) st count hg,
        pruneLoopNR_succ_pos thr l fuel st count hg]
      exact ih extra (stepNR l st) (count + 1)
        ((stepNR_layer_length l st).trans hM) (by omega)
    · rw [pruneLoopNR_succ_neg thr l (fuel + extra) st count hg,
        pruneLoopNR_succ_neg thr l fuel st count hg]

theorem pruneLoopRT_stable (rt : ℕ → List Weights → List Weights) (thr : ℚ)
    (l ep M : ℕ)
    (hrt : ∀ k m, ((rt k m).getD l []).length = (m.getD l []).length) :
    ∀ fuel extra (st : PruningState) (count : ℕ),
      (st.model.getD l []).length = M → M ≤ count + fuel →
      pruneLoopRT rt thr l ep (fuel + extra) st count =
        pruneLoopRT rt thr l ep fuel st count := by
  intro fuel
  induction fuel with
  | zero =>
    intro extra st count hM hc
    cases extra with
    | zero => rfl
    | succ extra =>
      have hng : ¬ acceptGuard (st.model.getD l []) thr count := by
        intro hg
        have := hg.2.2
        omega
      rw [Nat.zero_add]
      exact pruneLoopRT_succ_neg rt thr l ep extra st count hng
  | succ fuel ih =>
    intro extra st count hM hc
    have harr : fuel + 1 + extra = (fuel + extra) + 1 := by omega
    rw [harr]
    by_cases hg : acceptGuard (st.model.getD l []) thr count
    · rw [pruneLoopRT_succ_pos rt thr l ep (fuel + extra) st count hg,
        pruneLoopRT_succ_pos rt thr l ep fuel st count hg]
      rw [ih extra (stepRT rt l count st) (count + 1)
        ((stepRT_layer_length rt l count st hrt).trans hM) (by omega)]
    · rw [pruneLoopRT_succ_neg rt thr l ep (fuel + extra) st count hg,
        pruneLoopRT_succ_neg rt thr l ep fuel st count hg]

/-- C5: for a layer with `M` elements, both loops accept at most `M`
pruning iterations: the returned counter (starting from 0) never exceeds
`M`; the loops terminate, in the sense that the fuel-indexed recursion is
already stable at fuel `M`; and each loop exits as soon as the current
minimum magnitude is not strictly between `0` and the threshold. -/
theorem claim5_termination_bound (rt : ℕ → List Weights → List Weights)
    (thr : ℚ) (l ep : ℕ) (st : PruningState)
    (hrt : ∀ k m, ((rt k m).getD l []).length = (m.getD l []).length) :
    (∀ fuel, (pruneLoopRT rt thr l ep fuel st 0).2.1 ≤ (st.model.getD l []).length ∧
      (pruneLoopNR thr l fuel st 0).2 ≤ (st.model.getD l []).length) ∧
    (∀ fuel, (st.model.getD l []).length ≤ fuel →
      pruneLoopRT rt thr l ep fuel st 0 =
        pruneLoopRT rt thr l ep (st.model.getD l []).length st 0 ∧
      pruneLoopNR thr l fuel st 0 =
        pruneLoopNR thr l (st.model.getD l []).length st 0) ∧
    (∀ fuel (st2 : PruningState) (count : ℕ),
      ¬(0 < prunedValue (st2.model.getD l []) ∧
        prunedValue (st2.model.getD l []) < thr) →
      pruneLoopRT rt thr l ep (fuel + 1) st2 count = (st2, count, []) ∧
      pruneLoopNR thr l (fuel + 1) st2 count = (st2, count)) := by
  refine ⟨?_, ?_, ?_⟩
  · intro fuel
    exact ⟨pruneLoopRT_count_le rt thr l ep _ hrt fuel st 0 rfl (Nat.zero_le _),
      pruneLoopNR_count_le thr l _ fuel st 0 rfl (Nat.zero_le _)⟩
  · intro fuel hfuel
    have harr : fuel = (st.model.getD l []).length +
        (fuel - (st.model.getD l []).length) := by omega
    constructor
    · rw [harr]
      exact pruneLoopRT_stable rt thr l ep _ hrt _ _ st 0 rfl (by omega)
    · rw [harr]
      exact pruneLoopNR_stable thr l _ _ _ st 0 rfl (by omega)
  · intro fuel st2 count hng
    have hg : ¬ acceptGuard (st2.model.getD l []) thr count := by
      intro hc
      exact hng ⟨hc.1, hc.2.1⟩
    exact ⟨pruneLoopRT_succ_neg rt thr l ep fuel st2 count hg,
      pruneLoopNR_succ_neg thr l fuel st2 count hg⟩

/-- C5 witness: identity retraining oracle on a one-element layer. -/
theorem claim5_witness :
    (∀ (k : ℕ) (m : List Weights),
      (((fun (_ : ℕ) (m : List Weights) => m) k m).getD 0 []).length =
        (m.getD 0 []).length) ∧
    (∀ fuel, (pruneLoopNR 1 0 fuel ⟨[], [[(2 : ℚ)]], [[true]]⟩ 0).2 ≤ 1) :=
  ⟨fun _ _ => rfl,
   fun fuel => ((claim5_termination_bound (fun _ m => m) 1 0 7
     ⟨[], [[(2 : ℚ)]], [[true]]⟩ (fun _ _ => rfl)).1 fuel).2⟩

theorem pruneLoopRT_model_path (rt : ℕ → List Weights → List Weights) (thr : ℚ)
    (l ep : ℕ) : ∀ fuel (st : PruningState) (count : ℕ),
      (pruneLoopRT rt thr l ep fuel st count).1.model_path = st.model_path := by
  intro fuel
  induction fuel with
  | zero => intro st count; rfl
  | succ fuel ih =>
    intro st count
    by_cases hg : acceptGuard (st.model.getD l []) thr count
    · rw [pruneLoopRT_succ_pos rt thr l ep fuel st count hg]
      exact ih (stepRT rt l count st) (count + 1)
    · rw [pruneLoopRT_succ_neg rt thr l ep fuel st count hg]

theorem pruneLoopRT_trace_events (rt : ℕ → List Weights → List Weights)
    (thr : ℚ) (l ep : ℕ) : ∀ fuel (st : PruningState) (count : ℕ),
      ∀ e ∈ (pruneLoopRT rt thr l ep fuel st count).2.2,
        e = Event.compile ∨ e = Event.fit ep true := by
  intro fuel
  induction fuel with
  | zero =>
    intro st count e he
    exact absurd he (List.not_mem_nil e)
  | succ fuel ih =>
    intro st count e he
    by_cases hg : acceptGuard (st.model.getD l []) thr count
    · rw [pruneLoopRT_succ_pos rt thr l ep fuel st count hg] at he
      rcases List.mem_cons.mp he with rfl | he2
      · exact Or.inl rfl
      · rcases List.mem_cons.mp he2 with rfl | he3
        · exact Or.inr rfl
        · exact ih (stepRT rt l count st) (count + 1) e he3
    · rw [pruneLoopRT_succ_neg rt thr l ep fuel st count hg] at he
      exact absurd he (List.not_mem_nil e)

/-- C4: after its loop exits, every `prune_layer` call emits exactly one
final 20-epoch fit with the mask-reapplying hook active, followed by the
`save_pruned_model` persistence — regardless of whether any step was
accepted; the preceding loop trace consists only of `compile` events and
`epochs`-epoch hooked fits (in particular it contains no save). -/
theorem claim4_final_retraining (rt : ℕ → List Weights → List Weights)
    (fuel l : ℕ) (thr : ℚ) (ep : ℕ) (st : PruningState) :
    (prune_layer rt fuel l thr ep st).2 =
      (pruneLoopRT rt thr l ep fuel st 0).2.2 ++
        [Event.fit 20 true,
         Event.save (savedPath (prune_layer rt fuel l thr ep st).1.model_path
           (get_remaining_weights_number (prune_layer rt fuel l thr ep st).1).1)] ∧
    (prune_layer rt fuel l thr ep st).1.model_path = st.model_path ∧
    (∀ e ∈ (pruneLoopRT rt thr l ep fuel st 0).2.2,
      e = Event.compile ∨ e = Event.fit ep true) := by
  refine ⟨rfl, ?_, pruneLoopRT_trace_events rt thr l ep fuel st 0⟩
  exact pruneLoopRT_model_path rt thr l ep fuel st 0

theorem applyRow_getD_of_true (mk : Mask) (ws : Weights) (i : ℕ)
    (h : mk.getD i true = true) : (applyRow mk ws).getD i 0 = ws.getD i 0 := by
  induction ws generalizing mk i with
  | nil => cases mk <;> rfl
  | cons w ws ih =>
    cases mk with
    | nil => rfl
    | cons b bs =>
      cases i with
      | zero =>
        rw [List.getD_cons_zero] at h
        simp [applyRow, h]
      | succ i =>
        rw [List.getD_cons_succ] at h
        simp only [applyRow, List.getD_cons_succ]
        exact ih bs i h

theorem applyRow_getD_or (mk : Mask) (ws : Weights) (i : ℕ) :
    (applyRow mk ws).getD i 0 = ws.getD i 0 ∨ (applyRow mk ws).getD i 0 = 0 := by
  induction ws generalizing mk i with
  | nil => left; cases mk <;> rfl
  | cons w ws ih =>
    cases mk with
    | nil => left; rfl
    | cons b bs =>
      cases i with
      | zero =>
        cases b
        · right; simp [applyRow]
        · left; simp [applyRow]
      | succ i =>
        simp only [applyRow, List.getD_cons_succ]
        exact ih bs i

theorem apply_mask_wentry_of_true (mks : List Mask) (m : List Weights) (j i : ℕ)
    (h : mentry mks j i = true) : wentry (apply_mask mks m) j i = wentry m j i := by
  induction m generalizing mks j with
  | nil => cases mks <;> rfl
  | cons row rows ih =>
    cases mks with
    | nil => rfl
    | cons mk mks =>
      cases j with
      | zero =>
        simp only [mentry, List.getD_cons_zero] at h
        simp only [wentry, apply_mask, List.getD_cons_zero]
        exact applyRow_getD_of_true mk row i h
      | succ j =>
        simp only [mentry, List.getD_cons_succ] at h
        simp only [wentry, apply_mask, List.getD_cons_succ]
        exact ih mks j h

theorem apply_mask_wentry_or (mks : List Mask) (m : List Weights) (j i : ℕ) :
    wentry (apply_mask mks m) j i = wentry m j i ∨
      wentry (apply_mask mks m) j i = 0 := by
  induction m generalizing mks j with
  | nil => left; cases mks <;> rfl
  | cons row rows ih =>
    cases mks with
    | nil => left; rfl
    | cons mk mks =>
      cases j with
      | zero =>
        simp only [wentry, apply_mask, List.getD_cons_zero]
        exact applyRow_getD_or mk row i
      | succ j =>
        simp only [wentry, apply_mask, List.getD_cons_succ]
        exact ih mks j

theorem set_false_getD_true (row : Mask) (pos i : ℕ)
    (h : (row.set pos false).getD i true = true) : row.getD i true = true := by
  induction row generalizing pos i with
  | nil =>
    rw [List.set_nil] at h
    exact h
  | cons b bs ih =>
    cases pos with
    | zero =>
      cases i with
      | zero =>
        rw [List.set_cons_zero, List.getD_cons_zero] at h
        exact Bool.noConfusion h
      | succ i =>
        rw [List.set_cons_zero, List.getD_cons_succ] at h
        rw [List.getD_cons_succ]
        exact h
    | succ pos =>
      cases i with
      | zero =>
        rw [List.set_cons_succ, List.getD_cons_zero] at h
        rw [List.getD_cons_zero]
        exact h
      | succ i =>
        rw [List.set_cons_succ, List.getD_cons_succ] at h
        rw [List.getD_cons_succ]
        exact ih pos i h

theorem prune_parameter_cons_succ (row : Mask) (rows : List Mask) (l pos : ℕ) :
    prune_parameter (row :: rows) (l + 1) pos = row :: prune_parameter rows l pos := by
  simp [prune_parameter, List.set_cons_succ, List.getD_cons_succ]

theorem prune_parameter_mentry (mk : List Mask) (l pos j i : ℕ)
    (h : mentry (prune_parameter mk l pos) j i = true) : mentry mk j i = true := by
  induction mk generalizing l j with
  | nil =>
    simp only [prune_parameter, List.set_nil] at h
    exact h
  | cons row rows ih =>
    cases l with
    | zero =>
      cases j with
      | zero =>
        simp only [prune_parameter, List.set_cons_zero, List.getD_cons_zero,
          mentry] at h ⊢
        exact set_false_getD_true row pos i h
      | succ j =>
        simp only [prune_parameter, List.set_cons_zero, List.getD_cons_zero,
          mentry, List.getD_cons_succ] at h ⊢
        exact h
    | succ l =>
      rw [prune_parameter_cons_succ] at h
      cases j with
      | zero =>
        simp only [mentry, List.getD_cons_zero] at h ⊢
        exact h
      | succ j =>
        simp only [mentry, List.getD_cons_succ] at h ⊢
        exact ih l j h

theorem pruneLoopNR_frame (thr : ℚ) (l : ℕ) :
    ∀ fuel (st : PruningState) (count j i : ℕ),
      (mentry (pruneLoopNR thr l fuel st count).1.mask j i = true →
        mentry st.mask j i = true ∧
        wentry (pruneLoopNR thr l fuel st count).1.model j i = wentry st.model j i) ∧
      (wentry (pruneLoopNR thr l fuel st count).1.model j i = wentry st.model j i ∨
        wentry (pruneLoopNR thr l fuel st count).1.model j i = 0) := by
  intro fuel
  induction fuel with
  | zero => intro st count j i; exact ⟨fun h => ⟨h, rfl⟩, Or.inl rfl⟩
  | succ fuel ih =>
    intro st count j i
    by_cases hg : acceptGuard (st.model.getD l []) thr count
    · rw [pruneLoopNR_succ_pos thr l fuel st count hg]
      obtain ⟨ihm, ihor⟩ := ih (stepNR l st) (count + 1) j i
      constructor
      · intro h
        obtain ⟨hmask2, hmodel2⟩ := ihm h
        have hmask : mentry st.mask j i = true :=
          prune_parameter_mentry st.mask l (pruneIndex (st.model.getD l [])) j i hmask2
        have hmodel : wentry (stepNR l st).model j i = wentry st.model j i :=
          apply_mask_wentry_of_true (nextMask st l) st.model j i hmask2
        exact ⟨hmask, hmodel2.trans hmodel⟩
      · rcases ihor with h | h
        · rcases apply_mask_wentry_or (nextMask st l) st.model j i with h2 | h2
          · exact Or.inl (h.trans h2)
          · exact Or.inr (h.trans h2)
        · exact Or.inr h
    · rw [pruneLoopNR_succ_neg thr l fuel st count hg]
      exact ⟨fun h => ⟨h, rfl⟩, Or.inl rfl⟩

/-- C7: `prune_layer_no_retraining` emits no fit (training) event, and it
only changes weights by forcing them to `0` at pruned positions: every
position whose mask entry is still nonzero at the end keeps the weight it
had when the call started, and every weight either keeps its initial value
or ends up exactly `0`. -/
theorem claim7_no_training_frame (fuel l : ℕ) (thr : ℚ) (st : PruningState)
    (j i : ℕ)
    (h : mentry (prune_layer_no_retraining fuel l thr st).1.mask j i = true) :
    (∀ ep hook, Event.fit ep hook ∉ (prune_layer_no_retraining fuel l thr st).2) ∧
    wentry (prune_layer_no_retraining fuel l thr st).1.model j i =
      wentry st.model j i ∧
    (∀ a b, wentry (prune_layer_no_retraining fuel l thr st).1.model a b =
        wentry st.model a b ∨
      wentry (prune_layer_no_retraining fuel l thr st).1.model a b = 0) := by
  refine ⟨?_, ?_, ?_⟩
  · intro ep hook hmem
    simp only [prune_layer_no_retraining, save_pruned_model, List.mem_cons,
      List.mem_singleton] at hmem
    rcases hmem with h1 | h1 | h1
    · exact Event.noConfusion h1
    · exact Event.noConfusion h1
    · exact absurd h1 (List.not_mem_nil _)
  · exact ((pruneLoopNR_frame thr l fuel st 0 j i).1 h).2
  · intro a b
    exact (pruneLoopNR_frame thr l fuel st 0 a b).2

/-- C7 witness: a call on a one-weight layer whose weight is above the
threshold leaves the mask entry nonzero and the weight unchanged. -/
theorem claim7_witness :
    mentry (prune_layer_no_retraining 1 0 1 ⟨[], [[(3 : ℚ)]], [[true]]⟩).1.mask 0 0 =
      true ∧
    wentry (prune_layer_no_retraining 1 0 1 ⟨[], [[(3 : ℚ)]], [[true]]⟩).1.model 0 0 =
      wentry [[(3 : ℚ)]] 0 0 :=
  ⟨by decide,
   (claim7_no_training_frame 1 0 1 ⟨[], [[(3 : ℚ)]], [[true]]⟩ 0 0 (by decide)).2.1⟩

theorem foldl_add_countNonzero (mks : List Mask) (a : ℕ) :
    mks.foldl (fun acc layer => acc + countNonzero layer) a =
      a + (mks.map countNonzero).sum := by
  induction mks generalizing a with
  | nil => simp
  | cons mk mks ih =>
    simp only [List.foldl_cons, List.map_cons, List.sum_cons, ih]
    omega

/-- C9: `get_remaining_weights_number` returns exactly the sum, over the
per-layer mask tensors returned by `get_mask`, of their nonzero-entry
counts, and it is a pure query: the state it returns is the state it was
given, unchanged. -/
theorem claim9_remaining_is_pure_sum (st : PruningState) :
    (get_remaining_weights_number st).1 = ((get_mask st).map countNonzero).sum ∧
    (get_remaining_weights_number st).2 = st := by
  constructor
  · show (get_mask st).foldl (fun acc layer => acc + countNonzero layer) 0 = _
    rw [foldl_add_countNonzero]
    omega
  · rfl

theorem countNonzero_set_false_le (row : Mask) (pos : ℕ) :
    countNonzero (row.set pos false) ≤ countNonzero row := by
  induction row generalizing pos with
  | nil => simp [List.set_nil]
  | cons b bs ih =>
    cases pos with
    | zero =>
      simp only [List.set_cons_zero, countNonzero, List.countP_cons]
      cases b <;> simp
    | succ pos =>
      simp only [List.set_cons_succ, countNonzero, List.countP_cons]
      have h := ih pos
      simp only [countNonzero] at h
      omega

theorem remaining_set_le (mks : List Mask) (l : ℕ) (row : Mask)
    (h : countNonzero row ≤ countNonzero (mks.getD l [])) :
    ((mks.set l row).map countNonzero).sum ≤ (mks.map countNonzero).sum := by
  induction mks generalizing l with
  | nil => simp [List.set_nil]
  | cons mk mks ih =>
    cases l with
    | zero =>
      rw [List.getD_cons_zero] at h
      simp only [List.set_cons_zero, List.map_cons, List.sum_cons]
      omega
    | succ l =>
      rw [List.getD_cons_succ] at h
      simp only [List.set_cons_succ, List.map_cons, List.sum_cons]
      have := ih l h
      omega

theorem remaining_prune_parameter_le (mks : List Mask) (l pos : ℕ) :
    ((prune_parameter mks l pos).map countNonzero).sum ≤
      (mks.map countNonzero).sum :=
  remaining_set_le mks l _ (countNonzero_set_false_le (mks.getD l []) pos)

theorem pruneLoopNR_remaining_le (thr : ℚ) (l : ℕ) :
    ∀ fuel (st : PruningState) (count : ℕ),
      ((pruneLoopNR thr l fuel st count).1.mask.map countNonzero).sum ≤
        (st.mask.map countNonzero).sum := by
  intro fuel
  induction fuel with
  | zero => intro st count; exact Nat.le_refl _
  | succ fuel ih =>
    intro st count
    by_cases hg : acceptGuard (st.model.getD l []) thr count
    · rw [pruneLoopNR_succ_pos thr l fuel st count hg]
      exact le_trans (ih (stepNR l st) (count + 1))
        (remaining_prune_parameter_le st.mask l (pruneIndex (st.model.getD l [])))
    · rw [pruneLoopNR_succ_neg thr l fuel st count hg]

theorem pruneLoopRT_remaining_le (rt : ℕ → List Weights → List Weights)
    (thr : ℚ) (l ep : ℕ) :
    ∀ fuel (st : PruningState) (count : ℕ),
      ((pruneLoopRT rt thr l ep fuel st count).1.mask.map countNonzero).sum ≤
        (st.mask.map countNonzero).sum := by
  intro fuel
  induction fuel with
  | zero => intro st count; exact Nat.le_refl _
  | succ fuel ih =>
    intro st count
    by_cases hg : acceptGuard (st.model.getD l []) thr count
    · rw [pruneLoopRT_succ_pos rt thr l ep fuel st count hg]
      exact le_trans (ih (stepRT rt l count st) (count + 1))
        (remaining_prune_parameter_le st.mask l (pruneIndex (st.model.getD l [])))
    · rw [pruneLoopRT_succ_neg rt thr l ep fuel st count hg]

theorem countNonzero_le_of_pointwise (b : Mask) :
    ∀ r : Mask, r.length = b.length →
      (∀ i, r.getD i false = true → b.getD i false = true) →
      countNonzero r ≤ countNonzero b := by
  induction b with
  | nil =>
    intro r hlen _
    rw [List.length_nil, List.length_eq_zero] at hlen
    subst hlen
    exact Nat.le_refl _
  | cons y ys ih =>
    intro r hlen hpt
    cases r with
    | nil => simp [countNonzero]
    | cons x xs =>
      simp only [List.length_cons, Nat.succ.injEq] at hlen
      have h0 := hpt 0
      simp only [List.getD_cons_zero] at h0
      have htail : ∀ i, xs.getD i false = true → ys.getD i false = true := by
        intro i hi
        have := hpt (i + 1)
        simp only [List.getD_cons_succ] at this
        exact this hi
      have hle := ih xs hlen htail
      simp only [countNonzero, List.countP_cons] at hle ⊢
      cases x with
      | false => cases y <;> simp <;> omega
      | true =>
        rw [h0 rfl]
        simp
        omega

theorem remaining_propagateMask_le (rule : Mask → Mask → Mask)
    (hrule : ∀ a b, (rule a b).length = b.length ∧
      (∀ i, (rule a b).getD i false = true → b.getD i false = true))
    (mks : List Mask) (lo hi : ℕ) :
    ((propagateMask rule mks lo hi).map countNonzero).sum ≤
      (mks.map countNonzero).sum :=
  remaining_set_le mks hi _
    (countNonzero_le_of_pointwise (mks.getD hi []) _
      (hrule (mks.getD lo []) (mks.getD hi [])).1
      (hrule (mks.getD lo []) (mks.getD hi [])).2)

/-- C8: the remaining-weight count is non-increasing across pruning calls:
for every single call of `prune_layer`, `prune_layer_no_retraining` or
`propagate_pruning` the value of `get_remaining_weights_number` after the
call is at most the value before, and hence the same holds along any
sequence of such calls on the same instance.  The propagation rule of the
mask collaborator is quantified, assuming only its spec contract: it
derives the higher layer's mask by clearing entries, never reviving one. -/
theorem claim8_remaining_nonincreasing (rt : ℕ → List Weights → List Weights)
    (rule : Mask → Mask → Mask)
    (hrule : ∀ a b, (rule a b).length = b.length ∧
      (∀ i, (rule a b).getD i false = true → b.getD i false = true)) :
    (∀ (op : POp) (st : PruningState),
      (get_remaining_weights_number (runOp rt rule op st)).1 ≤
        (get_remaining_weights_number st).1) ∧
    (∀ (ops : List POp) (st : PruningState),
      (get_remaining_weights_number (runSeq rt rule ops st)).1 ≤
        (get_remaining_weights_number st).1) := by
  have hfold : ∀ st : PruningState, (get_remaining_weights_number st).1 =
      (st.mask.map countNonzero).sum := by
    intro st
    show st.mask.foldl (fun acc layer => acc + countNonzero layer) 0 = _
    rw [foldl_add_countNonzero]
    omega
  have hop : ∀ (op : POp) (st : PruningState),
      (get_remaining_weights_number (runOp rt rule op st)).1 ≤
        (get_remaining_weights_number st).1 := by
    intro op st
    rw [hfold, hfold]
    cases op with
    | pl l thr ep fuel => exact pruneLoopRT_remaining_le rt thr l ep fuel st 0
    | plnr l thr fuel => exact pruneLoopNR_remaining_le thr l fuel st 0
    | prop lo hi => exact remaining_propagateMask_le rule hrule st.mask lo hi
  refine ⟨hop, ?_⟩
  intro ops
  induction ops with
  | nil => intro st; exact Nat.le_refl _
  | cons op ops ih =>
    intro st
    exact le_trans (ih (runOp rt rule op st)) (hop op st)

/-- C8 witness: the identity propagation rule satisfies the contract, and a
concrete two-call sequence does not increase the remaining count. -/
theorem claim8_witness :
    (∀ a b : Mask, ((fun (_ : Mask) (b : Mask) => b) a b).length = b.length ∧
      (∀ i, ((fun (_ : Mask) (b : Mask) => b) a b).getD i false = true →
        b.getD i false = true)) ∧
    (get_remaining_weights_number
        (runSeq (fun _ m => m) (fun _ b => b) [POp.prop 0 1, POp.plnr 0 1 2]
          ⟨[], [[(3 : ℚ)]], [[true]]⟩)).1 ≤
      (get_remaining_weights_number ⟨[], [[(3 : ℚ)]], [[true]]⟩).1 :=
  ⟨fun _ _ => ⟨rfl, fun _ h => h⟩,
   (claim8_remaining_nonincreasing (fun _ m => m) (fun _ b => b)
     (fun _ _ => ⟨rfl, fun _ h => h⟩)).2 [POp.prop 0 1, POp.plnr 0 1 2]
     ⟨[], [[(3 : ℚ)]], [[true]]⟩⟩

theorem takeWhile_all_append (p : Char → Bool) (l1 : List Char) (c : Char)
    (l2 : List Char) (hall : ∀ x ∈ l1, p x = true) (hc : p c = false) :
    (l1 ++ c :: l2).takeWhile p = l1 := by
  induction l1 with
  | nil => simp [List.takeWhile_cons, hc]
  | cons a l ih =>
    rw [List.cons_append, List.takeWhile_cons,
      if_pos (hall a (List.mem_cons_self a l))]
    rw [ih (fun x hx => hall x (List.mem_cons_of_mem a hx))]

theorem afterLastSlash_append (xs ys : List Char)
    (hys : ∀ c ∈ ys, (c != '/') = true) :
    afterLastSlash (xs ++ '/' :: ys) = ys := by
  unfold afterLastSlash
  rw [List.reverse_append, List.reverse_cons, List.append_assoc,
    List.singleton_append]
  rw [takeWhile_all_append (fun c => c != '/') ys.reverse '/' xs.reverse
    (fun x hx => hys x (List.mem_reverse.mp hx)) (by decide)]
  exact List.reverse_reverse ys

theorem afterLastSlash_no_slash (p : List Char) :
    ∀ c ∈ afterLastSlash p, (c != '/') = true := by
  intro c hc
  unfold afterLastSlash at hc
  rw [List.mem_reverse] at hc
  exact List.mem_takeWhile_imp (p := fun c => c != '/') hc

theorem lastSlashSplit_snd (p : List Char) :
    (lastSlashSplit p).2 = afterLastSlash p := rfl

theorem decDigit_ne_slash (d : ℕ) : (decDigit d != '/') = true := by
  unfold decDigit
  split <;> decide

theorem decCharsAux_ne_slash :
    ∀ fuel n (acc : List Char), (∀ c ∈ acc, (c != '/') = true) →
      ∀ c ∈ decCharsAux fuel n acc, (c != '/') = true := by
  intro fuel
  induction fuel with
  | zero => intro n acc hacc c hc; exact hacc c hc
  | succ fuel ih =>
    intro n acc hacc c hc
    simp only [decCharsAux] at hc
    by_cases h : n < 10
    · rw [if_pos h] at hc
      rcases List.mem_cons.mp hc with rfl | hmem
      · exact decDigit_ne_slash n
      · exact hacc c hmem
    · rw [if_neg h] at hc
      refine ih (n / 10) _ ?_ c hc
      intro x hx
      rcases List.mem_cons.mp hx with rfl | hxm
      · exact decDigit_ne_slash _
      · exact hacc x hxm

theorem decChars_ne_slash (n : ℕ) : ∀ c ∈ decChars n, (c != '/') = true :=
  decCharsAux_ne_slash (n + 1) n [] (by intro c hc; exact absurd hc (List.not_mem_nil c))

theorem remaining_literal_no_slash :
    ∀ c ∈ "Remaining_weights".toList, (c != '/') = true := by decide

theorem noretrain_literal_no_slash :
    ∀ c ∈ "_noretrain_".toList, (c != '/') = true := by decide

theorem savedPath_afterLastSlash (p : List Char) (rem : ℕ) :
    afterLastSlash (savedPath p rem) =
      "Remaining_weights".toList ++ decChars rem ++ "_noretrain_".toList ++
        afterLastSlash p := by
  show afterLastSlash ((lastSlashSplit p).1 ++ '/' ::
    ("Remaining_weights".toList ++ decChars rem ++ "_noretrain_".toList ++
      afterLastSlash p)) = _
  rw [afterLastSlash_append]
  intro c hc
  simp only [List.mem_append] at hc
  rcases hc with ((hc | hc) | hc) | hc
  · exact remaining_literal_no_slash c hc
  · exact decChars_ne_slash rem c hc
  · exact noretrain_literal_no_slash c hc
  · exact afterLastSlash_no_slash p c hc

/-- C6: `save_pruned_model` writes to the path obtained by splitting
`model_path` into directory and file name and joining the directory with
`Remaining_weights`, the remaining count at save time, `_noretrain_` and
the file name; on the spec's scenario this yields
`/models/Remaining_weights10_noretrain_model.h5`, and the derived path is
never equal to the original `model_path`, so the original artifact is
never overwritten. -/
theorem claim6_save_path_fresh :
    (∀ st : PruningState, (save_pruned_model st).2 =
      [Event.save (savedPath st.model_path (get_remaining_weights_number st).1)]) ∧
    savedPath "/models/model.h5".toList 10 =
      "/models/Remaining_weights10_noretrain_model.h5".toList ∧
    (∀ (p : List Char) (rem : ℕ), savedPath p rem ≠ p) := by
  refine ⟨fun st => rfl, by decide, ?_⟩
  intro p rem hEq
  have h1 := congrArg afterLastSlash hEq
  rw [savedPath_afterLastSlash] at h1
  have h2 := congrArg List.length h1
  simp only [List.length_append] at h2
  have h17 : "Remaining_weights".toList.length = 17 := by decide
  omega

end LArPruning
